import Mathlib

/-!
Shallow embedding of GitGoblin's repository-state extraction and parsing
layer (the `internal/git` package and its `models`), together with proofs
about the parsers.  Strings are modelled as Lean `String`s (sequences of
characters); all inputs of interest are ASCII, where Go's byte indexing
and Lean's character indexing coincide.
-/

namespace GitGoblin

/-- Go's `unicode.IsSpace` restricted to the ASCII range (the only
characters that occur in `git` output). -/
def isGoSpace (c : Char) : Bool :=
  c = ' ' || c = '\t' || c = '\n' || c = (Char.ofNat 11) || c = (Char.ofNat 12) || c = '\r'

/-- Drop leading and trailing whitespace from a character list
(Go `strings.TrimSpace`). -/
def trimList (s : List Char) : List Char :=
  ((s.dropWhile isGoSpace).reverse.dropWhile isGoSpace).reverse

/-- Go `strings.TrimSpace`. -/
def goTrim (s : String) : String := String.mk (trimList s.data)

/-- Index of the first occurrence of `pat` in `s`, as a character count
(`none` when `pat` does not occur).  Mirrors Go `strings.Index`. -/
def listIndexOf (pat : List Char) : List Char → Option Nat
  | [] => if pat = [] then some 0 else none
  | c :: t =>
    if pat.isPrefixOf (c :: t) then some 0
    else (listIndexOf pat t).map (· + 1)

/-- Go `strings.Index`: first index of `sub` in `s`, `-1` when absent. -/
def goIndex (s sub : String) : Int :=
  match listIndexOf sub.data s.data with
  | some n => Int.ofNat n
  | none => -1

/-- Go `strings.Contains`. -/
def goContains (s sub : String) : Bool :=
  (listIndexOf sub.data s.data).isSome

/-- Split a character list at every occurrence of the single character `c`
(Go `strings.Split` with a one-character separator). -/
def splitChar (c : Char) : List Char → List (List Char)
  | [] => [[]]
  | x :: xs =>
    if x = c then [] :: splitChar c xs
    else
      match splitChar c xs with
      | [] => [[x]]
      | h :: t => (x :: h) :: t

/-- Go `strings.Split` with a one-character separator, on `String`s. -/
def goSplitChar (s : String) (c : Char) : List String :=
  (splitChar c s.data).map String.mk

/-- Split on an arbitrary (non-empty) separator, leftmost-first, with
explicit fuel so that the definition is structural and computable by the
kernel.  Mirrors Go `strings.Split` for a non-empty separator. -/
def splitSubFuel (sep : List Char) : Nat → List Char → List (List Char)
  | 0, s => [s]
  | fuel + 1, s =>
    match listIndexOf sep s with
    | none => [s]
    | some n =>
      match splitSubFuel sep fuel (s.drop (n + sep.length)) with
      | [] => [s.take n]
      | r => s.take n :: r

/-- Go `strings.Split` (non-empty separator). -/
def goSplit (s sep : String) : List String :=
  if sep.data = [] then [s]
  else (splitSubFuel sep.data (s.data.length + 1) s.data).map String.mk

/-- Split a character list at every character satisfying `p`, keeping
(possibly empty) segments between separators. -/
def splitWhen (p : Char → Bool) : List Char → List (List Char)
  | [] => [[]]
  | x :: xs =>
    if p x then [] :: splitWhen p xs
    else
      match splitWhen p xs with
      | [] => [[x]]
      | h :: t => (x :: h) :: t

/-- Go `strings.Fields`: whitespace-separated tokens, empties removed. -/
def goFields (s : String) : List String :=
  ((splitWhen isGoSpace s.data).filter (· ≠ [])).map String.mk

/-- Go `strings.HasPrefix`. -/
def goHasPrefix (s pre : String) : Bool := pre.data.isPrefixOf s.data

/-- Go `strings.TrimPrefix`. -/
def goTrimPrefix (s pre : String) : String :=
  if goHasPrefix s pre then String.mk (s.data.drop pre.data.length) else s

/-- The lines produced by a `bufio.Scanner` with the default `ScanLines`
split function: split on `'\n'`, drop a final empty token when the input
ends with a newline, and strip one trailing `'\r'` from each line. -/
def goLines (s : String) : List String :=
  if s.data = [] then []
  else
    let ls := (splitChar '\n' s.data).map fun l =>
      if l.getLast? = some '\r' then l.dropLast else l
    let ls := if ls.getLast? = some [] then ls.dropLast else ls
    ls.map String.mk

/-- Decimal value of a digit string (most significant digit first). -/
def digitsToNat (ds : List Char) : Nat :=
  ds.foldl (fun a c => a * 10 + (c.toNat - '0'.toNat)) 0

/-- `strconv.ParseInt`/`Atoi`-style integer parse of a whole string:
optional sign followed by at least one digit and nothing else; `none`
otherwise (Go then reports an error and the callers in this code base
fall back to `0`). -/
def goParseInt (s : String) : Option Int :=
  match s.data with
  | [] => none
  | '-' :: ds =>
    if ds ≠ [] ∧ ds.all Char.isDigit then
      some (-(Int.ofNat (digitsToNat ds)))
    else none
  | '+' :: ds =>
    if ds ≠ [] ∧ ds.all Char.isDigit then some (Int.ofNat (digitsToNat ds))
    else none
  | ds =>
    if ds.all Char.isDigit then some (Int.ofNat (digitsToNat ds))
    else none

/-- `fmt.Sscanf`-style `%d` directive reading from the front of a string:
skip whitespace, an optional sign, then at least one digit; returns the
value and the unread remainder. -/
def scanInt (s : List Char) : Option (Int × List Char) :=
  let s := s.dropWhile isGoSpace
  match s with
  | '-' :: rest =>
    let ds := rest.takeWhile Char.isDigit
    if ds = [] then none
    else some (-(Int.ofNat (digitsToNat ds)), rest.drop ds.length)
  | '+' :: rest =>
    let ds := rest.takeWhile Char.isDigit
    if ds = [] then none
    else some (Int.ofNat (digitsToNat ds), rest.drop ds.length)
  | _ =>
    let ds := s.takeWhile Char.isDigit
    if ds = [] then none
    else some (Int.ofNat (digitsToNat ds), s.drop ds.length)

/-- `fmt.Sscanf`-style `%*s` directive: skip whitespace and one maximal
non-whitespace token; fails at end of input. -/
def skipToken (s : List Char) : Option (List Char) :=
  let s := s.dropWhile isGoSpace
  let tok := s.takeWhile (fun c => ¬ isGoSpace c)
  if tok = [] then none else some (s.drop tok.length)

/-- `fmt.Sscanf(s, "%d", &x)` where `x` was initialised to `0`:
the scanned value, or `0` when the scan fails. -/
def sscanfInt (s : String) : Int :=
  match scanInt s.data with
  | some (v, _) => v
  | none => 0

instance {ε α : Type} [DecidableEq ε] [DecidableEq α] : DecidableEq (Except ε α) :=
  fun x y =>
    match x, y with
    | .ok a, .ok b =>
      if h : a = b then isTrue (by rw [h])
      else isFalse (by intro he; cases he; exact h rfl)
    | .error a, .error b =>
      if h : a = b then isTrue (by rw [h])
      else isFalse (by intro he; cases he; exact h rfl)
    | .ok _, .error _ => isFalse (by intro he; cases he)
    | .error _, .ok _ => isFalse (by intro he; cases he)

/-! ## Data model (`internal/models`) -/

/-- `models.FileChange`: one line of working-tree/staging-area status.
Status codes are the `FileStatus` strings of the source
(`"M"`, `"A"`, `"D"`, `"R"`, `"C"`, `"??"`, `"U"`, or `""`). -/
structure FileChange where
  path : String := ""
  status : String := ""
  stagedStatus : String := ""
  isStaged : Bool := false
  isUntracked : Bool := false
deriving Repr, DecidableEq

/-- `models.Branch`: one entry from a `git branch -vv --all` listing. -/
structure Branch where
  name : String := ""
  hash : String := ""
  isCurrent : Bool := false
  isRemote : Bool := false
  upstream : String := ""
  lastCommit : String := ""
deriving Repr, DecidableEq

/-- `models.Commit`: one entry from commit history.  `date` is the Unix
timestamp in seconds (`time.Unix(unixTime, 0)` stores exactly this). -/
structure Commit where
  hash : String := ""
  shortHash : String := ""
  author : String := ""
  email : String := ""
  date : Int := 0
  refs : List String := []
  parents : List String := []
  message : String := ""
deriving Repr, DecidableEq

/-! ## Status parser (`internal/git/status.go`, `parseStatus`) -/

/-- Parse a single porcelain status line; `none` exactly when the line is
shorter than 4 characters (the Go loop's `continue`). -/
def parseStatusLine (line : String) : Option FileChange :=
  let cs := line.data
  if cs.length < 4 then none
  else
    let stagedChar := cs.getD 0 ' '
    let workingChar := cs.getD 1 ' '
    let path0 := goTrim (String.mk (cs.drop 3))
    let path :=
      if stagedChar = 'R' then
        match goSplit path0 " -> " with
        | [_, b] => b
        | _ => path0
      else path0
    let stagedPair : String × Bool :=
      match stagedChar with
      | 'M' => ("M", true)
      | 'A' => ("A", true)
      | 'D' => ("D", true)
      | 'R' => ("R", true)
      | 'C' => ("C", true)
      | _ => ("", false)
    let workingPair : String × Bool :=
      match workingChar with
      | 'M' => ("M", false)
      | 'D' => ("D", false)
      | '?' => ("??", true)
      | _ => ("", false)
    some { path := path
           status := workingPair.1
           stagedStatus := stagedPair.1
           isStaged := stagedPair.2
           isUntracked := workingPair.2 }

/-- `parseStatus`: parse `git status --porcelain=v1` output. -/
def parseStatus (output : String) : List FileChange :=
  (goLines output).filterMap parseStatusLine

/-! ## Branch parser (`internal/git/branch.go`) -/

/-- `extractUpstreamInfo`: text between the first `[` and the first `]`
of the line, or `""`. -/
def extractUpstreamInfo (line : String) : String :=
  let start := goIndex line "["
  let stop := goIndex line "]"
  if start ≥ 0 ∧ stop > start then
    String.mk ((line.data.take stop.toNat).drop (start.toNat + 1))
  else ""

/-- Parse a single `git branch -vv --all` line; `none` exactly when the
line is blank or tokenizes into fewer than two fields. -/
def parseBranchLine (line0 : String) : Option Branch :=
  if goTrim line0 = "" then none
  else
    let isCurrent := goHasPrefix line0 "*"
    let line1 := if isCurrent then goTrimPrefix line0 "*" else goTrimPrefix line0 " "
    let line := goTrim line1
    let parts := goFields line
    if parts.length < 2 then none
    else
      let name0 := parts.getD 0 ""
      let hash := parts.getD 1 ""
      let isRemote := goHasPrefix name0 "remotes/"
      let name := if isRemote then goTrimPrefix name0 "remotes/" else name0
      let upstream :=
        if 2 < parts.length ∧ goHasPrefix (parts.getD 2 "") "[" then
          extractUpstreamInfo line
        else ""
      let messageStart : Int := goIndex line hash + Int.ofNat hash.data.length
      let lastCommit :=
        if messageStart < Int.ofNat line.data.length then
          let message := String.mk (line.data.drop messageStart.toNat)
          let idx := goIndex message "]"
          let message1 :=
            if idx > 0 ∧ goContains (String.mk (message.data.take idx.toNat)) "[" then
              String.mk (message.data.drop (idx.toNat + 1))
            else message
          goTrim message1
        else ""
      some { name := name, hash := hash, isCurrent := isCurrent,
             isRemote := isRemote, upstream := upstream, lastCommit := lastCommit }

/-- `parseBranches`: parse `git branch -vv --all` output. -/
def parseBranches (output : String) : List Branch :=
  (goLines output).filterMap parseBranchLine

/-! ## Log parser (`internal/git/log.go`) -/

/-- Parse a single delimited commit-log line; `none` exactly when the line
splits into fewer than 8 `|`-separated fields. -/
def parseCommitLine (line : String) : Option Commit :=
  let parts := goSplitChar line '|'
  if parts.length < 8 then none
  else
    let unixTime := (goParseInt (parts.getD 4 "")).getD 0
    let refsField := parts.getD 5 ""
    let refs :=
      if refsField ≠ "" then
        ((goSplit refsField ", ").map goTrim).filter (· ≠ "")
      else []
    let parentsField := parts.getD 6 ""
    let parents := if parentsField ≠ "" then goFields parentsField else []
    some { hash := parts.getD 0 "", shortHash := parts.getD 1 "",
           author := parts.getD 2 "", email := parts.getD 3 "",
           date := unixTime, refs := refs, parents := parents,
           message := parts.getD 7 "" }

/-- `parseCommits`: parse the `%H|%h|%an|%ae|%at|%D|%P|%s` log output. -/
def parseCommits (output : String) : List Commit :=
  (goLines output).filterMap parseCommitLine

/-! ## Graph/commit alignment (`GraphView.View`) -/

/-- The graph-glyph prefix extracted for one row of the graph view:
`graphLine[:hashIdx]` when `strings.Index(graphLine, shortHash) > 0`,
otherwise the fixed two-space placeholder. -/
def graphPrefix (graphLine shortHash : String) : String :=
  let hashIdx := goIndex graphLine shortHash
  if hashIdx > 0 then String.mk (graphLine.data.take hashIdx.toNat) else "  "

/-! ## Upstream annotation parser (`parseUpstream` in the dashboard) -/

/-- `fmt.Sscanf(status, "%*s%d", &v)` with `v` initialised to `0`. -/
def scanSkipInt (status : String) : Int :=
  match skipToken status.data with
  | none => 0
  | some rest =>
    match scanInt rest with
    | none => 0
    | some (v, _) => v

/-- `fmt.Sscanf(status, "%*s%d%*s%*s%d", &dummy, &v)` with `v`
initialised to `0`. -/
def scanSkipIntSkipSkipInt (status : String) : Int :=
  match skipToken status.data with
  | none => 0
  | some r1 =>
    match scanInt r1 with
    | none => 0
    | some (_, r2) =>
      match skipToken r2 with
      | none => 0
      | some r3 =>
        match skipToken r3 with
        | none => 0
        | some r4 =>
          match scanInt r4 with
          | none => 0
          | some (v, _) => v

/-- `parseUpstream`: extract `(ahead, behind)` from an upstream
annotation such as `"origin/main: ahead 2, behind 1"`. -/
def parseUpstream (upstream : String) : Int × Int :=
  if ¬ goContains upstream ":" then (0, 0)
  else
    let parts := goSplitChar upstream ':'
    if parts.length < 2 then (0, 0)
    else
      let status := parts.getD 1 ""
      let ahead := if goContains status "ahead" then scanSkipInt status else 0
      let behind :=
        if goContains status "behind" then
          if goContains status "ahead" then scanSkipIntSkipSkipInt status
          else scanSkipInt status
        else 0
      (ahead, behind)

/-! ## Branch comparison (`GetBranchComparison`) -/

/-- The parsing performed by `GetBranchComparison` on the output of
`git rev-list --left-right --count origin/<default>...HEAD`; returns
`(ahead, behind)`. -/
def getBranchComparison (output : String) : Except String (Int × Int) :=
  let parts := goFields (goTrim output)
  if parts.length ≠ 2 then .error "unexpected git rev-list output format"
  else
    let behind := sscanfInt (parts.getD 0 "")
    let ahead := sscanfInt (parts.getD 1 "")
    .ok (ahead, behind)

/-! ## Default-branch resolver (`GetDefaultBranch`) -/

/-- The scan of `git remote show origin` output: the first line whose
trimmed text contains `"HEAD branch:"` and splits into exactly two
`:`-separated parts yields the trimmed second part. -/
def findHeadBranch : List String → Option String
  | [] => none
  | l :: ls =>
    let t := goTrim l
    if goContains t "HEAD branch:" then
      let parts := goSplitChar t ':'
      if parts.length = 2 then some (goTrim (parts.getD 1 ""))
      else findHeadBranch ls
    else findHeadBranch ls

/-- Method 3's probe loop over the fixed list of conventional names. -/
def probeDefaults (probe : String → Bool) : List String → Option String
  | [] => none
  | n :: ns => if probe n then some n else probeDefaults probe ns

/-- The fixed fallback list of `GetDefaultBranch`. -/
def commonDefaults : List String := ["main", "master", "dev", "develop"]

/-- `GetDefaultBranch`, with the three external commands abstracted:
`symRef` is the output of `git symbolic-ref refs/remotes/origin/HEAD
--short` (`none` = command failed), `remoteShow` the output of
`git remote show origin`, and `revParseOk n` whether
`git rev-parse --verify origin/<n>` succeeds. -/
def getDefaultBranch (symRef : Option String) (remoteShow : Option String)
    (revParseOk : String → Bool) : Except String String :=
  match symRef with
  | some out =>
    let branchName := goTrim out
    if goHasPrefix branchName "origin/" then .ok (goTrimPrefix branchName "origin/")
    else .ok branchName
  | none =>
    let fromRemote :=
      match remoteShow with
      | some out => findHeadBranch (goLines out)
      | none => none
    match fromRemote with
    | some name => .ok name
    | none =>
      match probeDefaults revParseOk commonDefaults with
      | some n => .ok n
      | none => .error "could not detect default branch"

/-! ## Line statistics (`GetLineStats`) -/

/-- Go map insertion modelled on an association list: overwrite the
existing entry for the key, or append a new one. -/
def mapUpsert (m : List (String × Int × Int)) (k : String) (v : Int × Int) :
    List (String × Int × Int) :=
  if m.any (fun e => e.1 = k) then m.map (fun e => if e.1 = k then (k, v) else e)
  else m ++ [(k, v)]

/-- One numstat column: `0` for the binary placeholder `"-"` and for
unparsable integers, else the parsed value. -/
def numstatCount (s : String) : Int :=
  if s = "-" then 0
  else match goParseInt s with
       | some v => v
       | none => 0

/-- Processing of one numstat line by `GetLineStats`. -/
def numstatLine (m : List (String × Int × Int)) (line : String) :
    List (String × Int × Int) :=
  let fields := goFields line
  if fields.length < 3 then m
  else mapUpsert m (fields.getD 2 "")
         (numstatCount (fields.getD 0 ""), numstatCount (fields.getD 1 ""))

/-- The parsing performed by `GetLineStats` on `git diff --numstat`
output (the Go map represented as an association list). -/
def parseLineStats (output : String) : List (String × Int × Int) :=
  (goLines output).foldl numstatLine []

/-! ## Guard predicates (reused in theorem statements) -/

/-- The guard of the branch-parser loop: the line is not blank and, after
stripping the current-branch marker, tokenizes into at least two
whitespace-separated fields. -/
def branchLineOK (line0 : String) : Bool :=
  !(goTrim line0 == "") &&
    decide (2 ≤ (goFields (goTrim (if goHasPrefix line0 "*" then goTrimPrefix line0 "*"
      else goTrimPrefix line0 " "))).length)

/-- The condition under which a `git remote show origin` line makes
method 2 of `GetDefaultBranch` return: its trimmed text contains
`"HEAD branch:"` and splits into exactly two `:`-separated parts. -/
def headBranchLineHit (l : String) : Bool :=
  goContains (goTrim l) "HEAD branch:" &&
    ((goSplitChar (goTrim l) ':').length == 2)

/-! ## Helper lemmas about the string model -/

theorem isPrefixOf_eq_true_iff {l₁ l₂ : List Char} :
    l₁.isPrefixOf l₂ = true ↔ l₁ <+: l₂ :=
  List.isPrefixOf_iff_prefix

theorem listIndexOf_isPrefixOf {pat s : List Char} {n : Nat}
    (h : listIndexOf pat s = some n) : pat.isPrefixOf (s.drop n) := by
  induction s generalizing n with
  | nil =>
    simp only [listIndexOf] at h
    split at h
    · cases h
      simpa [List.isPrefixOf] using ‹pat = []›
    · cases h
  | cons c t ih =>
    simp only [listIndexOf] at h
    split at h
    · cases h
      simpa using ‹pat.isPrefixOf (c :: t) = true›
    · match hm : listIndexOf pat t with
      | none => rw [hm] at h; cases h
      | some m =>
        rw [hm] at h
        simp only [Option.map_some'] at h
        cases h
        simpa using ih hm

theorem listIndexOf_isSome_iff {pat s : List Char} :
    (listIndexOf pat s).isSome = true ↔ pat <:+: s := by
  constructor
  · intro h
    match hm : listIndexOf pat s with
    | none => rw [hm] at h; cases h
    | some n =>
      have hp := listIndexOf_isPrefixOf hm
      have hp' : pat <+: s.drop n := isPrefixOf_eq_true_iff.mp hp
      obtain ⟨t, ht⟩ := hp'
      exact ⟨s.take n, t, by rw [List.append_assoc, ht, List.take_append_drop]⟩
  · intro h
    induction s with
    | nil =>
      have : pat = [] := List.eq_nil_of_infix_nil h
      simp [listIndexOf, this]
    | cons c t ih =>
      simp only [listIndexOf]
      split
      · simp
      · rename_i hnp
        obtain ⟨u, v, huv⟩ := h
        match u with
        | [] =>
          exact absurd (isPrefixOf_eq_true_iff.mpr ⟨v, by simpa using huv⟩) hnp
        | d :: u' =>
          have ht : pat <:+: t := ⟨u', v, by simpa using congrArg List.tail huv⟩
          have := ih ht
          match hm : listIndexOf pat t with
          | none => rw [hm] at this; cases this
          | some m => simp [hm]

theorem splitChar_cons_isPrefix (c : Char) (s : List Char) :
    ∃ h t, splitChar c s = h :: t ∧ h <+: s := by
  induction s with
  | nil => exact ⟨[], [], rfl, List.nil_prefix⟩
  | cons x xs ih =>
    obtain ⟨h, t, hht, hpre⟩ := ih
    by_cases hx : x = c
    · exact ⟨[], splitChar c xs, by simp [splitChar, hx], List.nil_prefix⟩
    · refine ⟨x :: h, t, ?_, ?_⟩
      · simp [splitChar, hx, hht]
      · exact List.cons_prefix_cons.mpr ⟨rfl, hpre⟩

theorem mem_splitChar_isInfix {c : Char} {s x : List Char}
    (h : x ∈ splitChar c s) : x <:+: s := by
  induction s generalizing x with
  | nil =>
    simp only [splitChar, List.mem_singleton] at h
    simp [h]
  | cons y ys ih =>
    simp only [splitChar] at h
    split at h
    · rcases List.mem_cons.mp h with h0 | h1
      · simp [h0]
      · exact List.infix_cons (ih h1)
    · obtain ⟨hd, tl, hht, hpre⟩ := splitChar_cons_isPrefix c ys
      rw [hht] at h
      rcases List.mem_cons.mp h with h0 | h1
      · subst h0
        exact (List.cons_prefix_cons.mpr ⟨rfl, hpre⟩).isInfix
      · have : x ∈ splitChar c ys := by rw [hht]; exact List.mem_cons_of_mem _ h1
        exact List.infix_cons (ih this)

theorem goContains_of_isInfix {x : List Char} {t sub : String}
    (hinf : x <:+: t.data) (h : goContains (String.mk x) sub = true) :
    goContains t sub = true := by
  unfold goContains at *
  rw [listIndexOf_isSome_iff] at *
  exact List.IsInfix.trans h hinf

theorem splitChar_no_sep {c : Char} {s : List Char} (h : c ∉ s) :
    splitChar c s = [s] := by
  induction s with
  | nil => rfl
  | cons x xs ih =>
    have hx : ¬ x = c := fun he => h (he ▸ List.mem_cons_self x xs)
    have hxs : c ∉ xs := fun hm => h (List.mem_cons_of_mem _ hm)
    simp [splitChar, hx, ih hxs]

theorem length_filterMap_congr {α β : Type} (f : α → Option β) (p : α → Bool)
    (hfp : ∀ x, (f x).isSome = p x) (l : List α) :
    (l.filterMap f).length = (l.filter p).length := by
  induction l with
  | nil => rfl
  | cons x xs ih =>
    have hx := hfp x
    match hf : f x with
    | none =>
      rw [hf] at hx
      simp [List.filterMap_cons, hf, List.filter_cons, ← hx, ih]
    | some b =>
      rw [hf] at hx
      simp [List.filterMap_cons, hf, List.filter_cons, ← hx, ih]

theorem mem_goFields_ne_empty {s x : String} (h : x ∈ goFields s) : x ≠ "" := by
  unfold goFields at h
  obtain ⟨y, hy, hxy⟩ := List.mem_map.mp h
  have hYne : y ≠ [] := (List.mem_filter.mp hy).2 |> (by simpa using ·)
  intro hx
  apply hYne
  have : y = ("" : String).data := by rw [← hxy] at hx; exact congrArg String.data hx
  simpa using this

theorem getD_mem_of_lt {α : Type} (l : List α) (i : Nat) (d : α) (h : i < l.length) :
    l.getD i d ∈ l := by
  induction l generalizing i with
  | nil => cases h
  | cons x xs ih =>
    cases i with
    | zero => simp [List.getD_cons_zero]
    | succ j =>
      simp only [List.getD_cons_succ]
      exact List.mem_cons_of_mem _ (ih j (by simpa using h))

/-! ## Claim theorems -/

/-- C1 (counterexample): the claim states that parsing `"M  foo.txt"`
yields a record with staged=false and working-tree status modified.  The
code in fact reads character 0 (`M`) as the *staging-area* code, so the
record has staged=true, staged status modified and an empty working-tree
status. -/
theorem c1_counterexample :
    ¬ (∃ f, parseStatus "M  foo.txt" = [f] ∧ f.isStaged = false ∧ f.status = "M") := by
  rintro ⟨f, h1, h2, -⟩
  have he : parseStatus "M  foo.txt" =
      [{ path := "foo.txt", status := "", stagedStatus := "M",
         isStaged := true, isUntracked := false }] := by decide
  rw [he] at h1
  obtain ⟨h3, -⟩ := List.cons.inj h1
  rw [← h3] at h2
  simp at h2

/-- C1 (amended): for every well-formed (≥ 4 character) status line, the
parsed record's status fields and derived staged/untracked flags are pure
functions of characters X (index 0) and Y (index 1) as given by the fixed
code table; parsing `"M  foo.txt"` yields staged=true with staged status
modified and empty working-tree status, and parsing `"A  bar.txt"` yields
staged=true with staged status added. -/
theorem c1_theorem :
    (∀ (a b : String), 4 ≤ a.data.length → 4 ≤ b.data.length →
      a.data.getD 0 ' ' = b.data.getD 0 ' ' → a.data.getD 1 ' ' = b.data.getD 1 ' ' →
      ∃ fa fb, parseStatusLine a = some fa ∧ parseStatusLine b = some fb ∧
        fa.isStaged = fb.isStaged ∧ fa.stagedStatus = fb.stagedStatus ∧
        fa.status = fb.status ∧ fa.isUntracked = fb.isUntracked) ∧
    parseStatus "M  foo.txt" =
      [{ path := "foo.txt", status := "", stagedStatus := "M",
         isStaged := true, isUntracked := false }] ∧
    parseStatus "A  bar.txt" =
      [{ path := "bar.txt", status := "", stagedStatus := "A",
         isStaged := true, isUntracked := false }] := by
  refine ⟨?_, by decide, by decide⟩
  intro a b ha hb h0 h1
  have hna : ¬ (a.data.length < 4) := by omega
  have hnb : ¬ (b.data.length < 4) := by omega
  simp only [parseStatusLine, if_neg hna, if_neg hnb]
  exact ⟨_, _, rfl, rfl, by rw [h0], by rw [h0], by rw [h1], by rw [h1]⟩

/-- C1 (witness): the purity statement applied to the concrete lines
`"M  foo.txt"` and `"M  z"`, which share the code characters. -/
theorem c1_witness :
    ∃ fa fb, parseStatusLine "M  foo.txt" = some fa ∧
      parseStatusLine "M  z" = some fb ∧
      fa.isStaged = fb.isStaged ∧ fa.stagedStatus = fb.stagedStatus ∧
      fa.status = fb.status ∧ fa.isUntracked = fb.isUntracked :=
  c1_theorem.1 "M  foo.txt" "M  z" (by decide) (by decide) (by decide) (by decide)

/-- C2 (counterexample): the claim states that every emitted record has at
least one non-empty status code; the line `"ZZ f"` (two unmapped code
characters) is emitted with both codes empty. -/
theorem c2_counterexample :
    ¬ (∀ f ∈ parseStatus "ZZ f", f.status ≠ "" ∨ f.stagedStatus ≠ "") := by
  decide

/-- C2 (amended): blank or too-short lines (fewer than 4 characters) are
dropped and every line of at least 4 characters is emitted, so the number
of emitted records equals the number of such lines; an emitted record can
however have both status codes empty. -/
theorem c2_theorem (output : String) :
    (parseStatus output).length =
      ((goLines output).filter (fun l => decide (4 ≤ l.data.length))).length := by
  apply length_filterMap_congr
  intro l
  simp only [parseStatusLine]
  have hdl : l.length = l.data.length := rfl
  split
  · rename_i hlt
    have hn : ¬ (4 ≤ l.data.length) := by omega
    simp [hn]
    omega
  · rename_i hge
    have hy : 4 ≤ l.data.length := by omega
    simp [hy]
    omega

/-- C3: `GetBranchComparison` parses the two whitespace-separated fields
of the rev-list output positionally, the first as the behind-count and
the second as the ahead-count, and returns them as `(ahead, behind)`. -/
theorem c3_theorem (output p q : String)
    (h : goFields (goTrim output) = [p, q]) :
    getBranchComparison output = .ok (sscanfInt q, sscanfInt p) := by
  simp [getBranchComparison, h]

/-- C3 (witness): on output `"5\t3"` the result is ahead=3, behind=5. -/
theorem c3_witness :
    goFields (goTrim "5\t3") = ["5", "3"] ∧
    getBranchComparison "5\t3" = .ok (3, 5) := by
  refine ⟨by decide, ?_⟩
  rw [ c3_theorem "5\t3" "5" "3" (by decide)]
  decide

/-- C4: parsing the single branch-listing line
`"* main a1b2c3d [origin/main: ahead 2, behind 1] fix bug"` yields
exactly one record with name `"main"`, hash `"a1b2c3d"`, current=true,
remote=false, upstream `"origin/main: ahead 2, behind 1"` and last-commit
message `"fix bug"`. -/
theorem c4_theorem :
    parseBranches "* main a1b2c3d [origin/main: ahead 2, behind 1] fix bug" =
      [{ name := "main", hash := "a1b2c3d", isCurrent := true, isRemote := false,
         upstream := "origin/main: ahead 2, behind 1", lastCommit := "fix bug" }] := by
  decide

/-- C5: a commit record is emitted exactly for the lines that split into
at least 8 `|`-separated fields, so a malformed line among well-formed
ones is skipped without failing the parse; in particular a log of two
well-formed lines and one malformed line yields exactly two commits. -/
theorem c5_theorem :
    (∀ output, (parseCommits output).length =
      ((goLines output).filter (fun l => decide (8 ≤ (goSplitChar l '|').length))).length) ∧
    (parseCommits
      "h1|s1|an|ae|1700000000|||first\nmalformed line\nh2|s2|an|ae|1700000001|||second").length = 2 := by
  refine ⟨?_, by decide⟩
  intro output
  apply length_filterMap_congr
  intro l
  simp only [parseCommitLine]
  split
  · rename_i hlt
    have hn : ¬ (8 ≤ (goSplitChar l '|').length) := by omega
    simp [hn]
  · rename_i hge
    have hy : 8 ≤ (goSplitChar l '|').length := by omega
    simp [hy]

/-- C6 (counterexample): the claim states that whenever the commit's
short hash occurs as a substring of the graph line, the glyph prefix is
the leading substring before the match; when the hash occurs at index 0
the leading substring is empty, but the code (which tests `hashIdx > 0`,
not `>= 0`) returns the two-space placeholder instead. -/
theorem c6_counterexample :
    goIndex "abc123 m" "abc123" = Int.ofNat 0 ∧
    graphPrefix "abc123 m" "abc123" = "  " ∧
    graphPrefix "abc123 m" "abc123" ≠ "" := by
  decide

/-- C6 (amended): when the short hash occurs in the graph line at a
positive index, the glyph prefix is the leading substring before the
match (prefix ++ hash is a prefix of the line); when the match index is
zero or the hash does not occur, the prefix is the fixed two-space
placeholder. -/
theorem c6_theorem (gl sh : String) :
    (∀ n : Nat, goIndex gl sh = Int.ofNat n → 0 < n →
      (graphPrefix gl sh).data ++ sh.data <+: gl.data ∧
      (graphPrefix gl sh).data = gl.data.take n) ∧
    (goIndex gl sh ≤ 0 → graphPrefix gl sh = "  ") := by
  constructor
  · intro n hn hpos
    have hsome : listIndexOf sh.data gl.data = some n := by
      unfold goIndex at hn
      match hm : listIndexOf sh.data gl.data with
      | none =>
        rw [hm] at hn
        exact absurd hn (by simp only [Int.ofNat_eq_coe]; omega)
      | some m =>
        rw [hm] at hn
        simp only [Int.ofNat_eq_coe] at hn
        have hmn : m = n := by omega
        rw [hmn]
    have hp := listIndexOf_isPrefixOf hsome
    obtain ⟨t, ht⟩ := isPrefixOf_eq_true_iff.mp hp
    have hgp : (graphPrefix gl sh).data = gl.data.take n := by
      simp only [graphPrefix, hn]
      rw [if_pos (by simp only [Int.ofNat_eq_coe]; omega)]
      simp
    refine ⟨?_, hgp⟩
    rw [hgp]
    exact ⟨t, by rw [List.append_assoc, ht, List.take_append_drop]⟩
  · intro hle
    simp only [graphPrefix]
    rw [if_neg (by omega)]

/-- C6 (witness): a concrete graph line with the hash at index 2, and a
concrete line not containing the hash. -/
theorem c6_witness :
    ((graphPrefix "* a1b2c3 m" "a1b2c3").data ++ ("a1b2c3" : String).data <+:
      ("* a1b2c3 m" : String).data) ∧
    graphPrefix "| * x" "a1b2c3" = "  " :=
  ⟨(( c6_theorem "* a1b2c3 m" "a1b2c3").1 2 (by decide) (by decide)).1,
   ( c6_theorem "| * x" "a1b2c3").2 (by decide)⟩

/-- C7: the ahead/behind extraction is a total pure function: on
`"origin/main: ahead 2, behind 1"` it yields (2, 1), also with extra
whitespace in the input; when the `ahead` (resp. `behind`) clause is
absent from the input the corresponding count is 0. -/
theorem c7_theorem :
    parseUpstream "origin/main: ahead 2, behind 1" = (2, 1) ∧
    parseUpstream "origin/main:  ahead  2 ,  behind  1" = (2, 1) ∧
    (∀ s : String, goContains s "ahead" = false → (parseUpstream s).1 = 0) ∧
    (∀ s : String, goContains s "behind" = false → (parseUpstream s).2 = 0) := by
  have hstat : ∀ (s sub : String), sub.data ≠ [] → goContains s sub = false →
      goContains ((goSplitChar s ':').getD 1 "") sub = false := by
    intro s sub hsub hs
    by_cases hlen : 1 < (goSplitChar s ':').length
    · have hmem := getD_mem_of_lt (goSplitChar s ':') 1 "" hlen
      have hmem' : (goSplitChar s ':').getD 1 "" ∈ (splitChar ':' s.data).map String.mk :=
        hmem
      obtain ⟨y, hy, hxy⟩ := List.mem_map.mp hmem'
      cases hc : goContains ((goSplitChar s ':').getD 1 "") sub
      · rfl
      · exfalso
        rw [← hxy] at hc
        have := goContains_of_isInfix (mem_splitChar_isInfix hy) hc
        rw [hs] at this
        cases this
    · have hd : (goSplitChar s ':').getD 1 "" = "" := by
        rw [List.getD_eq_default]
        omega
      rw [hd]
      unfold goContains
      simp only [listIndexOf]
      rw [if_neg hsub]
      rfl
  refine ⟨by decide, by decide, ?_, ?_⟩
  · intro s hs
    have hst := hstat s "ahead" (by decide) hs
    simp only [List.getD_eq_getElem?_getD] at hst
    simp only [parseUpstream]
    split
    · rfl
    · split
      · rfl
      · simp [hst]
  · intro s hs
    have hst := hstat s "behind" (by decide) hs
    simp only [List.getD_eq_getElem?_getD] at hst
    simp only [parseUpstream]
    split
    · rfl
    · split
      · rfl
      · simp [hst]

/-- C7 (witness): concrete annotations with one clause absent. -/
theorem c7_witness :
    goContains "origin/main: behind 3" "ahead" = false ∧
    (parseUpstream "origin/main: behind 3").1 = 0 ∧
    goContains "origin/main: ahead 7" "behind" = false ∧
    (parseUpstream "origin/main: ahead 7").2 = 0 :=
  ⟨by decide, c7_theorem.2.2.1 _ (by decide), by decide, c7_theorem.2.2.2 _ (by decide)⟩

theorem findHeadBranch_append (pre post : List String) :
    (∀ l ∈ pre, headBranchLineHit l = false) →
    findHeadBranch (pre ++ "  HEAD branch: develop" :: post) = some "develop" := by
  induction pre with
  | nil =>
    intro _
    simp only [List.nil_append, findHeadBranch]
    have h1 : goContains (goTrim "  HEAD branch: develop") "HEAD branch:" = true := by decide
    have h2 : (goSplitChar (goTrim "  HEAD branch: develop") ':').length = 2 := by decide
    rw [if_pos h1, if_pos h2]
    decide
  | cons l ls ih =>
    intro hpre
    have hl := hpre l (List.mem_cons_self l ls)
    have hrest : ∀ x ∈ ls, headBranchLineHit x = false :=
      fun x hx => hpre x (List.mem_cons_of_mem l hx)
    simp only [List.cons_append, findHeadBranch]
    unfold headBranchLineHit at hl
    by_cases hc : goContains (goTrim l) "HEAD branch:" = true
    · rw [hc] at hl
      simp only [Bool.true_and] at hl
      rw [if_pos hc, if_neg (by simpa using hl)]
      exact ih hrest
    · rw [if_neg hc]
      exact ih hrest

/-- C8 (counterexample): the claim states that whenever strategy 1 fails
and strategy 2's output contains the line `"  HEAD branch: develop"`,
the resolved default is `"develop"`.  An earlier line containing
`"HEAD branch:"` preempts the scan, so the output below resolves to
`"main"` instead. -/
theorem c8_counterexample :
    ("  HEAD branch: develop" ∈ goLines "HEAD branch: main\n  HEAD branch: develop") ∧
    getDefaultBranch none (some "HEAD branch: main\n  HEAD branch: develop")
      (fun _ => false) ≠ Except.ok "develop" := by
  decide

/-- C8 (amended): if strategy 1 fails and the first line of strategy 2's
output whose trimmed text contains `"HEAD branch:"` and splits into
exactly two `:`-separated parts is `"  HEAD branch: develop"`, then the
resolved default branch is `"develop"`, and strategy 3 is never
consulted (the result does not depend on the probe function). -/
theorem c8_theorem (out2 : String) (pre post : List String)
    (probe probe' : String → Bool)
    (hsplit : goLines out2 = pre ++ "  HEAD branch: develop" :: post)
    (hpre : ∀ l ∈ pre, headBranchLineHit l = false) :
    getDefaultBranch none (some out2) probe = .ok "develop" ∧
    getDefaultBranch none (some out2) probe = getDefaultBranch none (some out2) probe' := by
  have hfind : findHeadBranch (goLines out2) = some "develop" := by
    rw [hsplit]
    exact findHeadBranch_append pre post hpre
  constructor
  · simp only [getDefaultBranch, hfind]
  · simp only [getDefaultBranch, hfind]

/-- C8 (witness): a concrete `remote show` output whose only
`"HEAD branch:"` line is `"  HEAD branch: develop"`. -/
theorem c8_witness :
    getDefaultBranch none
      (some "* remote origin\n  HEAD branch: develop\n  Remote branches:")
      (fun _ => false) = .ok "develop" :=
  ( c8_theorem "* remote origin\n  HEAD branch: develop\n  Remote branches:"
    ["* remote origin"] ["  Remote branches:"] (fun _ => false) (fun _ => true)
    (by decide) (by decide)).1

theorem parseBranchLine_isSome (l : String) :
    (parseBranchLine l).isSome = branchLineOK l := by
  by_cases hcur : goHasPrefix l "*" = true
  · simp only [parseBranchLine, branchLineOK, if_pos hcur]
    split
    · rename_i h0
      simp [h0]
    · rename_i h0
      split
      · rename_i hlt
        have hn : ¬ (2 ≤ (goFields (goTrim (goTrimPrefix l "*"))).length) := by omega
        simp [h0, hn]
      · rename_i hge
        have hy : 2 ≤ (goFields (goTrim (goTrimPrefix l "*"))).length := by omega
        simp [h0, hy]
  · simp only [parseBranchLine, branchLineOK, if_neg hcur]
    split
    · rename_i h0
      simp [h0]
    · rename_i h0
      split
      · rename_i hlt
        have hn : ¬ (2 ≤ (goFields (goTrim (goTrimPrefix l " "))).length) := by omega
        simp [h0, hn]
      · rename_i hge
        have hy : 2 ≤ (goFields (goTrim (goTrimPrefix l " "))).length := by omega
        simp [h0, hy]

/-- C9 (counterexample): the claim states every emitted branch record has
a non-empty name; the line `"remotes/ abc123"` tokenizes into two fields,
its name token is exactly `"remotes/"`, and stripping the remote prefix
leaves an empty name on the emitted record. -/
theorem c9_counterexample :
    ¬ (∀ b ∈ parseBranches "remotes/ abc123", b.name ≠ "") := by
  decide

/-- C9 (amended): lines that are blank or do not tokenize into at least a
name token and a hash token are dropped (the number of emitted records
equals the number of lines passing that guard), and an emitted record's
name can only be empty when the record is marked remote (name token
exactly `"remotes/"`); for non-remote records the name is never empty. -/
theorem c9_theorem :
    (∀ output, (parseBranches output).length =
      ((goLines output).filter branchLineOK).length) ∧
    (∀ output, ∀ b ∈ parseBranches output, b.name = "" → b.isRemote = true) := by
  constructor
  · intro output
    exact length_filterMap_congr _ _ parseBranchLine_isSome _
  · intro output b hb hname
    obtain ⟨l, hl, hpb⟩ := List.mem_filterMap.mp hb
    by_cases hcur : goHasPrefix l "*" = true
    · simp only [parseBranchLine, if_pos hcur] at hpb
      split at hpb
      · cases hpb
      · rename_i h0
        split at hpb
        · cases hpb
        · rename_i hlen
          injection hpb with hpb
          subst hpb
          by_cases hrem : goHasPrefix
              ((goFields (goTrim (goTrimPrefix l "*"))).getD 0 "") "remotes/" = true
          · simpa using hrem
          · exfalso
            simp only [if_neg hrem] at hname
            have hmem := getD_mem_of_lt (goFields (goTrim (goTrimPrefix l "*"))) 0 ""
              (by omega)
            exact mem_goFields_ne_empty hmem hname
    · simp only [parseBranchLine, if_neg hcur] at hpb
      split at hpb
      · cases hpb
      · rename_i h0
        split at hpb
        · cases hpb
        · rename_i hlen
          injection hpb with hpb
          subst hpb
          by_cases hrem : goHasPrefix
              ((goFields (goTrim (goTrimPrefix l " "))).getD 0 "") "remotes/" = true
          · simpa using hrem
          · exfalso
            simp only [if_neg hrem] at hname
            have hmem := getD_mem_of_lt (goFields (goTrim (goTrimPrefix l " "))) 0 ""
              (by omega)
            exact mem_goFields_ne_empty hmem hname

/-- C9 (witness): the count part applied to a concrete listing with one
good line, one blank line and one single-token line, and the name part
applied to the concrete empty-name record of `"remotes/ abc123"`. -/
theorem c9_witness :
    (parseBranches "* main a1b2c3d msg\n\nlonely").length =
      ((goLines "* main a1b2c3d msg\n\nlonely").filter branchLineOK).length ∧
    ({ name := "", hash := "abc123", isRemote := true } : Branch).isRemote = true :=
  ⟨ c9_theorem.1 "* main a1b2c3d msg\n\nlonely",
   c9_theorem.2 "remotes/ abc123"
     { name := "", hash := "abc123", isRemote := true } (by decide) (by decide)⟩

theorem goLines_single {line : String} (hne : line.data ≠ [])
    (hn : '\n' ∉ line.data) (hr : '\r' ∉ line.data) :
    goLines line = [line] := by
  unfold goLines
  rw [if_neg hne]
  rw [splitChar_no_sep hn]
  have hlast : line.data.getLast? ≠ some '\r' := by
    intro hc
    exact hr (List.mem_of_mem_getLast? (Option.mem_def.mpr hc))
  simp only [List.map_cons, List.map_nil, if_neg hlast]
  rw [if_neg (by simp [hne])]
  simp

/-- C10: for a numstat line with at least three whitespace-separated
fields (in particular one whose path contains an internal space, giving
four or more fields), the resulting map has exactly one entry, keyed by
the third field only — the remainder of the path is silently discarded —
with the two parsed counts as value. -/
theorem c10_theorem (line : String) (f : List String)
    (hnl : '\n' ∉ line.data) (hcr : '\r' ∉ line.data)
    (hf : goFields line = f) (hlen : 3 ≤ f.length) :
    parseLineStats line =
      [(f.getD 2 "", numstatCount (f.getD 0 ""), numstatCount (f.getD 1 ""))] := by
  have hne : line.data ≠ [] := by
    intro h0
    have : goFields line = [] := by
      unfold goFields splitWhen
      rw [h0]
      rfl
    rw [hf] at this
    rw [this] at hlen
    simp at hlen
  rw [parseLineStats, goLines_single hne hnl hcr]
  simp only [List.foldl_cons, List.foldl_nil, numstatLine, hf]
  rw [if_neg (by omega)]
  simp [mapUpsert]

/-- C10 (witness): the line `"1\t2\tmy file.txt"` has path
`"my file.txt"` with an internal space; the map is keyed by `"my"`. -/
theorem c10_witness :
    parseLineStats "1\t2\tmy file.txt" = [("my", 1, 2)] := by
  rw [ c10_theorem "1\t2\tmy file.txt" ["1", "2", "my", "file.txt"]
    (by decide) (by decide) (by decide) (by decide)]
  decide

end GitGoblin
